import Mathlib

/-!
Verification of the kNet repository fragments.

The main subject is the single-producer/single-consumer ring buffer
`kNet::WaitFreeQueue<T>` (file `WaitFreeQueue.h`): a circular array `data`
of power-of-two length `maxElementsMask + 1`, with a consumer index `head`
and a producer index `tail`, all index arithmetic done with the bit mask
`maxElementsMask`.  The second subject is the `main` entry point of the
`InOrderTest.cpp` sample harness.

The embedding below keeps the C++ names.  The backing store is modelled as
a total function `Nat → α` (array cells outside the allocated range are
never read by the verified operations).  Machine integers (`unsigned long`,
`size_t`) are modelled as `Nat`: all index values the code manipulates stay
far below the word size, and the bit-mask operation `&&&` is taken directly
from the source.
-/

namespace kNet

/-- The state of a `WaitFreeQueue<T>` object: the backing array `data`, the
AND mask `maxElementsMask` (array length minus one), the consumer index
`head` and the producer index `tail`. -/
structure WaitFreeQueue (α : Type) where
  data : Nat → α
  maxElementsMask : Nat
  head : Nat
  tail : Nat

/-- Pointwise array-cell update: the effect of the C++ statement
`data[i] = v` on the backing store. -/
def upd {α : Type} (d : Nat → α) (i : Nat) (v : α) : Nat → α :=
  fun j => if j = i then v else d j

/-- One doubling step of the power-of-two rounding loop: doubles `acc`
until it reaches `x`, with explicit fuel for structural termination. -/
def roundUpGo (x : Nat) : Nat → Nat → Nat
  | _acc, 0 => 0
  | acc, fuel + 1 => if x ≤ acc then acc else roundUpGo x (2 * acc) fuel

/-- Modelled from the spec: `kNet::RoundUpToNextPow2` (declared in
`BitOps.h`, not among the provided sources) rounds its argument up to the
next power of two; the constructor and `Resize` use it so that
`maxElementsMask + 1` is always a power of two.  The fuel `x` is always
sufficient for `x ≥ 1` because doubling from 1 reaches `2^(x-1) ≥ x`
within `x - 1` steps. -/
def RoundUpToNextPow2 (x : Nat) : Nat :=
  roundUpGo x 1 x

/-- The constructor `WaitFreeQueue(maxElements)`: rounds `maxElements` up
to a power of two, allocates the array (whose initial contents `d0` are
arbitrary, as `new T[n]` does not initialise POD cells) and sets
`maxElementsMask`, `head = 0`, `tail = 0`. -/
def mkQueue {α : Type} (maxElements : Nat) (d0 : Nat → α) : WaitFreeQueue α :=
  let m := RoundUpToNextPow2 maxElements
  { data := d0, maxElementsMask := m - 1, head := 0, tail := 0 }

/-- `Capacity()`: the total number of items the queue can hold, defined in
the source as `maxElementsMask`. -/
def Capacity {α : Type} (q : WaitFreeQueue α) : Nat :=
  q.maxElementsMask

/-- `Size()`: `tail - head` when `tail ≥ head`, otherwise
`maxElementsMask + 1 - (head - tail)`. -/
def Size {α : Type} (q : WaitFreeQueue α) : Nat :=
  if q.head ≤ q.tail then q.tail - q.head
  else q.maxElementsMask + 1 - (q.head - q.tail)

/-- `CapacityLeft()`: `Capacity() - Size()`. -/
def CapacityLeft {α : Type} (q : WaitFreeQueue α) : Nat :=
  Capacity q - Size q

/-- `Insert(value)`: computes `nextTail = (tail + 1) & maxElementsMask`;
if it equals `head` the queue is full and the call returns `false` leaving
the state unchanged, otherwise the value is stored at `data[tail]`, `tail`
is advanced and the call returns `true`.  The returned pair is the `bool`
result together with the post-state of the object. -/
def Insert {α : Type} (q : WaitFreeQueue α) (value : α) : Bool × WaitFreeQueue α :=
  let tail_ := q.tail
  let nextTail := (tail_ + 1) &&& q.maxElementsMask
  if nextTail = q.head then (false, q)
  else (true, { q with data := upd q.data tail_ value, tail := nextTail })

/-- `Front()`: null (`none`) when `head == tail`, otherwise a pointer to
(the value of) `data[head]`. -/
def Front {α : Type} (q : WaitFreeQueue α) : Option α :=
  if q.head = q.tail then none else some (q.data q.head)

/-- `ItemAt(index)`: the element `data[(head + index) & maxElementsMask]`. -/
def ItemAt {α : Type} (q : WaitFreeQueue α) (index : Nat) : α :=
  q.data ((q.head + index) &&& q.maxElementsMask)

/-- `PopFront()`: a no-op when `head == tail` (the source returns early),
otherwise sets `head = (head + 1) & maxElementsMask`. -/
def PopFront {α : Type} (q : WaitFreeQueue α) : WaitFreeQueue α :=
  if q.head = q.tail then q
  else { q with head := (q.head + 1) &&& q.maxElementsMask }

/-- `TakeFront()`: dereferences the pointer returned by `Front()` and then
calls `PopFront()`.  When the queue is empty the dereferenced pointer is
null, so the operation has no defined result: this is modelled by `none`. -/
def TakeFront {α : Type} (q : WaitFreeQueue α) : Option (α × WaitFreeQueue α) :=
  match Front q with
  | none => none
  | some v => some (v, PopFront q)

/-- `Clear()`: sets `tail = head`. -/
def Clear {α : Type} (q : WaitFreeQueue α) : WaitFreeQueue α :=
  { q with tail := q.head }

/-- The observable contents of the queue from the consumer's point of view:
`ItemAt 0, ItemAt 1, …, ItemAt (Size - 1)`. -/
def toList {α : Type} (q : WaitFreeQueue α) : List α :=
  (List.range (Size q)).map (fun i => ItemAt q i)

/-- Well-formedness invariant maintained by every queue operation:
the array length `maxElementsMask + 1` is a power of two and both indices
lie within the array. -/
structure WFq {α : Type} (q : WaitFreeQueue α) : Prop where
  pow2 : ∃ k, q.maxElementsMask + 1 = 2 ^ k
  head_le : q.head ≤ q.maxElementsMask
  tail_le : q.tail ≤ q.maxElementsMask

/-- The loop body iterations of `EraseItemAtMoveFront`: after `n` of the
`numItemsToMove = index` iterations of
`data[(head+index + maxElementsMask+1 -i)&maxElementsMask] =
 data[(head+index + maxElementsMask+1 -i-1) &maxElementsMask]`
(the recursion argument `n` is the loop counter `i`). -/
def eraseFrontLoop {α : Type} (d : Nat → α) (headv index mask : Nat) : Nat → Nat → α
  | 0 => d
  | n + 1 =>
    let dn := eraseFrontLoop d headv index mask n
    upd dn ((headv + index + mask + 1 - n) &&& mask)
      (dn ((headv + index + mask + 1 - n - 1) &&& mask))

/-- The loop body iterations of `EraseItemAtMoveBack`: after `n` of the
`numItemsToMove = Size()-1-index` iterations of
`data[(head+index+i)&maxElementsMask] = data[(head+index+i+1)&maxElementsMask]`. -/
def eraseBackLoop {α : Type} (d : Nat → α) (headv index mask : Nat) : Nat → Nat → α
  | 0 => d
  | n + 1 =>
    let dn := eraseBackLoop d headv index mask n
    upd dn ((headv + index + n) &&& mask) (dn ((headv + index + n + 1) &&& mask))

/-- `EraseItemAtMoveFront(index)`: moves the `index` items in front of the
erased position one slot towards the back, then advances `head`. -/
def EraseItemAtMoveFront {α : Type} (q : WaitFreeQueue α) (index : Nat) :
    WaitFreeQueue α :=
  { q with
    data := eraseFrontLoop q.data q.head index q.maxElementsMask index,
    head := (q.head + 1) &&& q.maxElementsMask }

/-- `EraseItemAtMoveBack(index)`: moves the `Size()-1-index` items behind
the erased position one slot towards the front, then retreats `tail` by
one modulo the array length (`(tail + maxElementsMask+1 - 1) & mask`). -/
def EraseItemAtMoveBack {α : Type} (q : WaitFreeQueue α) (index : Nat) :
    WaitFreeQueue α :=
  { q with
    data := eraseBackLoop q.data q.head index q.maxElementsMask (Size q - 1 - index),
    tail := (q.tail + q.maxElementsMask + 1 - 1) &&& q.maxElementsMask }

/-- `EraseItemAt(index)`: dispatches to `EraseItemAtMoveFront` when
`index <= Size()>>1`, otherwise to `EraseItemAtMoveBack`. -/
def EraseItemAt {α : Type} (q : WaitFreeQueue α) (index : Nat) : WaitFreeQueue α :=
  if index ≤ Size q >>> 1 then EraseItemAtMoveFront q index
  else EraseItemAtMoveBack q index

/-- The copy loop of `Resize`: `newData[newTail++] = *ItemAt(i)` for
`i = 0 .. n-1`, starting from the freshly allocated array `newData`. -/
def resizeCopyLoop {α : Type} (q : WaitFreeQueue α) (newData : Nat → α) :
    Nat → Nat → α
  | 0 => newData
  | n + 1 => upd (resizeCopyLoop q newData n) n (ItemAt q n)

/-- `Resize(newSize)`: rounds `newSize` up to a power of two, allocates a
new array (initial contents `newAlloc`), copies the `Size()` live elements
to positions `0 .. Size()-1`, and sets `head = 0`, `tail = Size()`,
`maxElementsMask = newSize - 1`. -/
def Resize {α : Type} (q : WaitFreeQueue α) (newSize : Nat) (newAlloc : Nat → α) :
    WaitFreeQueue α :=
  let ns := RoundUpToNextPow2 newSize
  { data := resizeCopyLoop q newAlloc (Size q),
    maxElementsMask := ns - 1,
    head := 0,
    tail := Size q }

/-- `DoubleCapacity()`: `Resize(2*(maxElementsMask+1))`. -/
def DoubleCapacity {α : Type} (q : WaitFreeQueue α) (newAlloc : Nat → α) :
    WaitFreeQueue α :=
  Resize q (2 * (q.maxElementsMask + 1)) newAlloc

/-- `InsertWithResize(value)`: tries `Insert`; on failure calls
`DoubleCapacity()` and inserts again. -/
def InsertWithResize {α : Type} (q : WaitFreeQueue α) (value : α)
    (newAlloc : Nat → α) : WaitFreeQueue α :=
  let r := Insert q value
  if r.1 then r.2
  else
    let q2 := DoubleCapacity q newAlloc
    (Insert q2 value).2

/-- Repeated `Insert` of a list of values by the producer; the `Bool`
result is `true` when every single `Insert` succeeded. -/
def insertList {α : Type} : WaitFreeQueue α → List α → WaitFreeQueue α × Bool
  | q, [] => (q, true)
  | q, v :: vs =>
    let r := Insert q v
    let r2 := insertList r.2 vs
    (r2.1, r.1 && r2.2)

/-- The states of a `WaitFreeQueue` reachable from a constructor call by
the queue operations.  `Resize` carries its documented precondition that
the live elements fit in the new array (callers only grow the queue). -/
inductive Reachable {α : Type} : WaitFreeQueue α → Prop
  | init (maxElements : Nat) (d0 : Nat → α) : Reachable (mkQueue maxElements d0)
  | insert (q : WaitFreeQueue α) (v : α) :
      Reachable q → Reachable (Insert q v).2
  | popFront (q : WaitFreeQueue α) : Reachable q → Reachable (PopFront q)
  | clear (q : WaitFreeQueue α) : Reachable q → Reachable (Clear q)
  | eraseItemAt (q : WaitFreeQueue α) (index : Nat) :
      Reachable q → index < Size q → Reachable (EraseItemAt q index)
  | resize (q : WaitFreeQueue α) (n : Nat) (newAlloc : Nat → α) :
      Reachable q → Size q < RoundUpToNextPow2 n → Reachable (Resize q n newAlloc)
  | doubleCapacity (q : WaitFreeQueue α) (newAlloc : Nat → α) :
      Reachable q → Reachable (DoubleCapacity q newAlloc)
  | insertWithResize (q : WaitFreeQueue α) (v : α) (newAlloc : Nat → α) :
      Reachable q → Reachable (InsertWithResize q v newAlloc)

/-- One call by either thread: the producer calling `Insert value`, or the
consumer calling `Front` followed (when non-null) by `PopFront`. -/
inductive SPSCEvent (α : Type)
  | insert (value : α)
  | pop

/-- A point in an interleaved execution: the shared queue, the sequence of
values the producer has successfully inserted, and the sequence of values
the consumer has observed and popped. -/
structure SPSCState (α : Type) where
  queue : WaitFreeQueue α
  produced : List α
  consumed : List α

/-- The effect of one interleaved call on the execution state. -/
def SPSCStep {α : Type} (s : SPSCState α) : SPSCEvent α → SPSCState α
  | .insert v =>
    let r := Insert s.queue v
    if r.1 then ⟨r.2, s.produced ++ [v], s.consumed⟩
    else ⟨r.2, s.produced, s.consumed⟩
  | .pop =>
    match Front s.queue with
    | none => s
    | some v => ⟨PopFront s.queue, s.produced, s.consumed ++ [v]⟩

/-- Running an arbitrary interleaving of producer and consumer calls. -/
def SPSCRun {α : Type} (s : SPSCState α) : List (SPSCEvent α) → SPSCState α
  | [] => s
  | e :: es => SPSCRun (SPSCStep s e) es

/-- Concrete queues used to instantiate the general theorems. -/
def q4 : WaitFreeQueue Nat :=
  mkQueue 4 (fun _ => 0)

/-- A concrete wrapped-around queue: array length 4, `head = 3`, `tail = 2`,
holding the three elements `data[3], data[0], data[1]`. -/
def qWrap : WaitFreeQueue Nat :=
  { data := fun j => j + 10, maxElementsMask := 3, head := 3, tail := 2 }

/-- `kNet::SocketTransportLayer` (values used by the harness). -/
inductive SocketTransportLayer
  | SocketOverTCP
  | SocketOverUDP
  | InvalidTransportLayer
deriving DecidableEq

/-- The lower-cased code of an ASCII character, used to model the
case-insensitive C string comparison `_stricmp`. -/
def lowerCode (c : Char) : Nat :=
  if 65 ≤ c.toNat ∧ c.toNat ≤ 90 then c.toNat + 32 else c.toNat

/-- The lower-cased character codes of a string. -/
def strLowerCodes (s : String) : List Nat :=
  s.data.map lowerCode

/-- `_stricmp(a, b) == 0`: case-insensitive string equality. -/
def stricmpEq (a b : String) : Bool :=
  strLowerCodes a == strLowerCodes b

/-- Modelled from the spec: `kNet::StringToSocketTransportLayer` (its
definition is not among the provided sources) parses the CLI transport
argument `tcp|udp`, anything else being `InvalidTransportLayer`. -/
def StringToSocketTransportLayer (s : String) : SocketTransportLayer :=
  if stricmpEq s "tcp" then .SocketOverTCP
  else if stricmpEq s "udp" then .SocketOverUDP
  else .InvalidTransportLayer

/-- The distinct lines the `InOrderTest.cpp` harness can print, named
abstractly: the three usage lines printed by `PrintUsage()`, the two error
lines of `main`, and the outputs of `RunServer`/`RunClient`. -/
inductive OutLine
  | usageHeader
  | usageServer
  | usageClient
  | errTransportParam
  | errSubcommand
  | serverUnable
  | serverWaiting
  | clientOutput
deriving DecidableEq

/-- `PrintUsage()`: the usage text. -/
def PrintUsage : List OutLine :=
  [.usageHeader, .usageServer, .usageClient]

/-- `NetworkApp::RunServer`: prints a failure line when the server cannot
be started, otherwise the waiting banner (the modal server loop follows).
Always returns to `main` without influencing its return value. -/
def RunServerModel (startOk : Bool) : List OutLine :=
  if startOk then [.serverWaiting] else [.serverUnable]

/-- `NetworkApp::RunClient`: connection progress output, abstracted to a
single marker; it never influences `main`'s return value. -/
def RunClientModel : List OutLine :=
  [.clientOutput]

/-- The `main` of `InOrderTest.cpp`: the pair of the printed lines and the
process exit status.  `serverStartOk` abstracts the outcome of the network
calls inside `RunServer`.  Mirrors the source: fewer than 4 arguments
prints usage and returns 0; an invalid transport prints an error and
returns 0; `server`/`client` subcommands are compared case-insensitively
(`_stricmp`); a `client` invocation with fewer than 5 arguments prints
usage and returns 0; an unknown subcommand prints an error line and
returns 0; every path returns 0. -/
def mainModel (argv : List String) (serverStartOk : Bool) : List OutLine × Nat :=
  if argv.length < 4 then (PrintUsage, 0)
  else if StringToSocketTransportLayer (argv.getD 2 "") = .InvalidTransportLayer then
    ([.errTransportParam], 0)
  else if stricmpEq (argv.getD 1 "") "server" then (RunServerModel serverStartOk, 0)
  else if stricmpEq (argv.getD 1 "") "client" then
    if argv.length < 5 then (PrintUsage, 0) else (RunClientModel, 0)
  else ([.errSubcommand], 0)


theorem upd_self {α : Type} (d : Nat → α) (i : Nat) (v : α) : upd d i v i = v := by
  simp [upd]

theorem upd_ne {α : Type} (d : Nat → α) {i j : Nat} (v : α) (h : j ≠ i) :
    upd d i v j = d j := by
  simp [upd, h]

/-- Under the power-of-two invariant, masking with `maxElementsMask` is
reduction modulo the array length. -/
theorem WFq.and_mask {α : Type} {q : WaitFreeQueue α} (hq : WFq q) (x : Nat) :
    x &&& q.maxElementsMask = x % (q.maxElementsMask + 1) := by
  obtain ⟨k, hk⟩ := hq.pow2
  have hm : q.maxElementsMask = 2 ^ k - 1 := by omega
  rw [hm, Nat.and_pow_two_sub_one_eq_mod, ← hm, hk]

theorem WFq.C_pos {α : Type} {q : WaitFreeQueue α} (_hq : WFq q) :
    0 < q.maxElementsMask + 1 := by
  omega

theorem size_le_mask {α : Type} {q : WaitFreeQueue α} (hq : WFq q) :
    Size q ≤ q.maxElementsMask := by
  have h1 := hq.head_le
  have h2 := hq.tail_le
  unfold Size
  split <;> omega

theorem size_eq_zero_iff {α : Type} {q : WaitFreeQueue α} (hq : WFq q) :
    Size q = 0 ↔ q.head = q.tail := by
  have h1 := hq.head_le
  have h2 := hq.tail_le
  unfold Size
  split <;> omega

/-- The physical position of the logical back of the queue is `tail`. -/
theorem head_add_size_mod {α : Type} {q : WaitFreeQueue α} (hq : WFq q) :
    (q.head + Size q) % (q.maxElementsMask + 1) = q.tail := by
  have h1 := hq.head_le
  have h2 := hq.tail_le
  unfold Size
  split
  · have he : q.head + (q.tail - q.head) = q.tail := by omega
    rw [he]
    exact Nat.mod_eq_of_lt (by omega)
  · have he : q.head + (q.maxElementsMask + 1 - (q.head - q.tail)) =
        q.tail + (q.maxElementsMask + 1) := by omega
    rw [he, Nat.add_mod_right]
    exact Nat.mod_eq_of_lt (by omega)

/-- Physical positions of distinct in-range logical offsets are distinct. -/
theorem pos_inj {α : Type} {q : WaitFreeQueue α} {i j : Nat}
    (hi : i < q.maxElementsMask + 1) (hj : j < q.maxElementsMask + 1)
    (h : (q.head + i) % (q.maxElementsMask + 1) =
         (q.head + j) % (q.maxElementsMask + 1)) : i = j := by
  have h' : Nat.ModEq (q.maxElementsMask + 1) (q.head + i) (q.head + j) := h
  have h'' : Nat.ModEq (q.maxElementsMask + 1) i j :=
    Nat.ModEq.add_left_cancel' q.head h'
  have h3 : i % (q.maxElementsMask + 1) = j % (q.maxElementsMask + 1) := h''
  rwa [Nat.mod_eq_of_lt hi, Nat.mod_eq_of_lt hj] at h3

theorem itemAt_mod {α : Type} {q : WaitFreeQueue α} (hq : WFq q) (i : Nat) :
    ItemAt q i = q.data ((q.head + i) % (q.maxElementsMask + 1)) := by
  rw [ItemAt, hq.and_mask]

theorem toList_length {α : Type} (q : WaitFreeQueue α) :
    (toList q).length = Size q := by
  simp [toList]

theorem toList_getElem {α : Type} (q : WaitFreeQueue α) (j : Nat)
    (h : j < (toList q).length) : (toList q)[j] = ItemAt q j := by
  simp [toList]

/-- `Insert` reports failure exactly on the full-queue condition. -/
theorem insert_false_iff {α : Type} {q : WaitFreeQueue α} (hq : WFq q) (v : α) :
    (Insert q v).1 = false ↔ (q.tail + 1) % (q.maxElementsMask + 1) = q.head := by
  simp only [Insert]
  rw [hq.and_mask]
  split <;> simp_all

/-- A failed `Insert` leaves the queue untouched. -/
theorem insert_false_eq {α : Type} (q : WaitFreeQueue α) (v : α)
    (h : (Insert q v).1 = false) : (Insert q v).2 = q := by
  simp only [Insert] at *
  split at h <;> simp_all

/-- A successful `Insert` writes `value` at slot `tail` and advances `tail`
by one modulo the array length; `head` and the mask are unchanged. -/
theorem insert_true_eq {α : Type} {q : WaitFreeQueue α} (hq : WFq q) (v : α)
    (h : (q.tail + 1) % (q.maxElementsMask + 1) ≠ q.head) :
    Insert q v = (true,
      { data := upd q.data q.tail v,
        maxElementsMask := q.maxElementsMask,
        head := q.head,
        tail := (q.tail + 1) % (q.maxElementsMask + 1) }) := by
  simp only [Insert]
  rw [hq.and_mask]
  split
  · omega
  · rfl

theorem insert_WF {α : Type} {q : WaitFreeQueue α} (hq : WFq q) (v : α) :
    WFq (Insert q v).2 := by
  simp only [Insert]
  split
  · exact hq
  · refine ⟨hq.pow2, hq.head_le, ?_⟩
    exact Nat.and_le_right

theorem insert_true_size {α : Type} {q : WaitFreeQueue α} (hq : WFq q) (v : α)
    (h : (q.tail + 1) % (q.maxElementsMask + 1) ≠ q.head) :
    Size (Insert q v).2 = Size q + 1 := by
  rw [insert_true_eq hq v h]
  have h1 := hq.head_le
  have h2 := hq.tail_le
  rcases Nat.lt_or_ge (q.tail + 1) (q.maxElementsMask + 1) with hlt | hge
  · rw [show ((q.tail + 1) % (q.maxElementsMask + 1)) = q.tail + 1 from
      Nat.mod_eq_of_lt hlt] at h ⊢
    unfold Size
    simp only
    split <;> split <;> omega
  · have he : q.tail + 1 = q.maxElementsMask + 1 := by omega
    rw [show ((q.tail + 1) % (q.maxElementsMask + 1)) = 0 by
      rw [he, Nat.mod_self]] at h ⊢
    unfold Size
    simp only
    split <;> split <;> omega

/-- A successful `Insert` appends `value` at the back of the observable
sequence and changes nothing else. -/
theorem insert_true_toList {α : Type} {q : WaitFreeQueue α} (hq : WFq q) (v : α)
    (h : (q.tail + 1) % (q.maxElementsMask + 1) ≠ q.head) :
    toList (Insert q v).2 = toList q ++ [v] := by
  have hwf' : WFq (Insert q v).2 := insert_WF hq v
  have hsz : Size (Insert q v).2 = Size q + 1 := insert_true_size hq v h
  have hszle : Size q ≤ q.maxElementsMask := size_le_mask hq
  have heq := insert_true_eq hq v h
  have htp := head_add_size_mod hq
  rw [toList, hsz, List.range_succ, List.map_append]
  have hhead : (Insert q v).2.head = q.head := by rw [heq]
  have hmask : (Insert q v).2.maxElementsMask = q.maxElementsMask := by rw [heq]
  have hdata : (Insert q v).2.data = upd q.data q.tail v := by rw [heq]
  have hitem : ∀ i, ItemAt (Insert q v).2 i =
      upd q.data q.tail v ((q.head + i) % (q.maxElementsMask + 1)) := by
    intro i
    rw [itemAt_mod hwf', hhead, hmask, hdata]
  congr 1
  · apply List.map_congr_left
    intro i hi
    have hilt : i < Size q := List.mem_range.mp hi
    rw [hitem i, itemAt_mod hq]
    apply upd_ne
    intro hcon
    rw [← htp] at hcon
    have := pos_inj (q := q) (by omega) (by omega) hcon
    omega
  · simp only [List.map_cons, List.map_nil]
    rw [hitem (Size q), ← htp, upd_self]

/-- `PopFront` on a non-empty queue advances `head` by one modulo the
array length and leaves everything else alone. -/
theorem popFront_eq {α : Type} {q : WaitFreeQueue α} (hq : WFq q)
    (h : q.head ≠ q.tail) :
    PopFront q = { q with head := (q.head + 1) % (q.maxElementsMask + 1) } := by
  unfold PopFront
  rw [hq.and_mask]
  split
  · omega
  · rfl

theorem popFront_WF {α : Type} {q : WaitFreeQueue α} (hq : WFq q) :
    WFq (PopFront q) := by
  unfold PopFront
  split
  · exact hq
  · exact ⟨hq.pow2, Nat.and_le_right, hq.tail_le⟩

theorem popFront_size {α : Type} {q : WaitFreeQueue α} (hq : WFq q)
    (h : q.head ≠ q.tail) : Size (PopFront q) = Size q - 1 := by
  rw [popFront_eq hq h]
  have h1 := hq.head_le
  have h2 := hq.tail_le
  rcases Nat.lt_or_ge (q.head + 1) (q.maxElementsMask + 1) with hlt | hge
  · rw [show ((q.head + 1) % (q.maxElementsMask + 1)) = q.head + 1 from
      Nat.mod_eq_of_lt hlt]
    unfold Size
    simp only
    split <;> split <;> omega
  · have he : q.head + 1 = q.maxElementsMask + 1 := by omega
    rw [show ((q.head + 1) % (q.maxElementsMask + 1)) = 0 by
      rw [he, Nat.mod_self]]
    unfold Size
    simp only
    split <;> split <;> omega

theorem popFront_itemAt {α : Type} {q : WaitFreeQueue α} (hq : WFq q)
    (h : q.head ≠ q.tail) (i : Nat) :
    ItemAt (PopFront q) i = ItemAt q (i + 1) := by
  have hwf' : WFq (PopFront q) := popFront_WF hq
  rw [itemAt_mod hwf', itemAt_mod hq, popFront_eq hq h]
  simp only
  rw [Nat.mod_add_mod]
  have he : q.head + 1 + i = q.head + (i + 1) := by omega
  rw [he]

/-- On a non-empty queue the observable sequence decomposes as the front
element followed by the sequence after `PopFront`. -/
theorem toList_cons {α : Type} {q : WaitFreeQueue α} (hq : WFq q)
    (h : q.head ≠ q.tail) :
    toList q = ItemAt q 0 :: toList (PopFront q) := by
  have hsz : Size (PopFront q) = Size q - 1 := popFront_size hq h
  have hpos : 0 < Size q := by
    rcases Nat.eq_zero_or_pos (Size q) with h0 | h0
    · exact absurd ((size_eq_zero_iff hq).mp h0) h
    · exact h0
  rw [toList, show Size q = Size (PopFront q) + 1 by omega,
    List.range_succ_eq_map, List.map_cons, List.map_map]
  rw [toList]
  congr 1
  apply List.map_congr_left
  intro i _
  simp only [Function.comp_apply]
  rw [popFront_itemAt hq h i]

/-- Every result of the rounding loop is zero (fuel exhausted) or a power
of two. -/
theorem roundUpGo_pow2_or_zero (x : Nat) :
    ∀ (fuel j : Nat), roundUpGo x (2 ^ j) fuel = 0 ∨
      ∃ m, roundUpGo x (2 ^ j) fuel = 2 ^ m := by
  intro fuel
  induction fuel with
  | zero => intro j; left; rfl
  | succ n ih =>
    intro j
    unfold roundUpGo
    split
    · right; exact ⟨j, rfl⟩
    · have := ih (j + 1)
      rw [pow_succ, mul_comm] at this
      exact this

/-- On a power-of-two input the rounding loop is the identity. -/
theorem roundUpGo_pow2_id (k : Nat) :
    ∀ (fuel j : Nat), j ≤ k → k - j < fuel →
      roundUpGo (2 ^ k) (2 ^ j) fuel = 2 ^ k := by
  intro fuel
  induction fuel with
  | zero => omega
  | succ n ih =>
    intro j hjk hfuel
    unfold roundUpGo
    split
    · next hle =>
      have : k ≤ j := (Nat.pow_le_pow_iff_right (by omega)).mp hle
      have : j = k := by omega
      rw [this]
    · next hgt =>
      have hjk' : j < k := by
        by_contra hc
        have : j = k := by omega
        simp [this] at hgt
      have := ih (j + 1) (by omega) (by omega)
      rw [pow_succ, mul_comm] at this
      exact this

theorem roundUp_pow2_eq (k : Nat) : RoundUpToNextPow2 (2 ^ k) = 2 ^ k := by
  unfold RoundUpToNextPow2
  have h1 : (1 : Nat) = 2 ^ 0 := rfl
  rw [h1]
  exact roundUpGo_pow2_id k (2 ^ k) 0 (Nat.zero_le k)
    (by have := Nat.lt_two_pow k; omega)

/-- The mask produced from any rounded size satisfies the power-of-two
invariant (the fuel-exhaustion value 0 gives the degenerate mask 0,
i.e. array length `1 = 2^0`). -/
theorem roundUp_mask_pow2 (x : Nat) :
    ∃ m, RoundUpToNextPow2 x - 1 + 1 = 2 ^ m := by
  unfold RoundUpToNextPow2
  have h1 : (1 : Nat) = 2 ^ 0 := rfl
  rw [h1]
  rcases roundUpGo_pow2_or_zero x x 0 with h | ⟨m, h⟩
  · rw [h]; exact ⟨0, rfl⟩
  · rw [h]
    have : 0 < 2 ^ m := Nat.pos_pow_of_pos m (by omega)
    exact ⟨m, by omega⟩

theorem mkQueue_WF {α : Type} (maxElements : Nat) (d0 : Nat → α) :
    WFq (mkQueue maxElements d0) := by
  refine ⟨?_, Nat.zero_le _, Nat.zero_le _⟩
  exact roundUp_mask_pow2 maxElements

theorem clear_WF {α : Type} {q : WaitFreeQueue α} (hq : WFq q) :
    WFq (Clear q) :=
  ⟨hq.pow2, hq.head_le, hq.head_le⟩

theorem eraseItemAt_WF {α : Type} {q : WaitFreeQueue α} (hq : WFq q)
    (index : Nat) : WFq (EraseItemAt q index) := by
  unfold EraseItemAt EraseItemAtMoveFront EraseItemAtMoveBack
  split
  · exact ⟨hq.pow2, Nat.and_le_right, hq.tail_le⟩
  · exact ⟨hq.pow2, hq.head_le, Nat.and_le_right⟩

theorem resize_WF {α : Type} {q : WaitFreeQueue α} {n : Nat}
    (newAlloc : Nat → α) (h : Size q < RoundUpToNextPow2 n) :
    WFq (Resize q n newAlloc) := by
  refine ⟨roundUp_mask_pow2 n, Nat.zero_le _, ?_⟩
  show Size q ≤ RoundUpToNextPow2 n - 1
  omega

theorem doubleCapacity_size_lt {α : Type} {q : WaitFreeQueue α} (hq : WFq q) :
    Size q < RoundUpToNextPow2 (2 * (q.maxElementsMask + 1)) := by
  obtain ⟨k, hk⟩ := hq.pow2
  have h2 : 2 * (q.maxElementsMask + 1) = 2 ^ (k + 1) := by
    rw [hk, pow_succ, mul_comm]
  rw [h2, roundUp_pow2_eq]
  have := size_le_mask hq
  have : 2 ^ k < 2 ^ (k + 1) := by
    have : (2:Nat) ^ k > 0 := Nat.pos_pow_of_pos k (by omega)
    rw [pow_succ]
    omega
  omega

theorem doubleCapacity_WF {α : Type} {q : WaitFreeQueue α} (hq : WFq q)
    (newAlloc : Nat → α) : WFq (DoubleCapacity q newAlloc) :=
  resize_WF newAlloc (doubleCapacity_size_lt hq)

theorem insertWithResize_WF {α : Type} {q : WaitFreeQueue α} (hq : WFq q)
    (v : α) (newAlloc : Nat → α) : WFq (InsertWithResize q v newAlloc) := by
  simp only [InsertWithResize]
  split
  · exact insert_WF hq v
  · exact insert_WF (doubleCapacity_WF hq newAlloc) v

/-- Every reachable queue state is well-formed. -/
theorem reachable_WF {α : Type} {q : WaitFreeQueue α} (h : Reachable q) :
    WFq q := by
  induction h with
  | init maxElements d0 => exact mkQueue_WF maxElements d0
  | insert q v _ ih => exact insert_WF ih v
  | popFront q _ ih => exact popFront_WF ih
  | clear q _ ih => exact clear_WF ih
  | eraseItemAt q index _ _ ih => exact eraseItemAt_WF ih index
  | resize q n newAlloc _ hsz _ => exact resize_WF newAlloc hsz
  | doubleCapacity q newAlloc _ ih => exact doubleCapacity_WF ih newAlloc
  | insertWithResize q v newAlloc _ ih => exact insertWithResize_WF ih v newAlloc

theorem resizeCopyLoop_spec {α : Type} (q : WaitFreeQueue α) (newData : Nat → α) :
    ∀ (n y : Nat), resizeCopyLoop q newData n y =
      if y < n then ItemAt q y else newData y := by
  intro n
  induction n with
  | zero => intro y; simp [resizeCopyLoop]
  | succ m ih =>
    intro y
    unfold resizeCopyLoop
    rcases Nat.lt_trichotomy y m with hy | hy | hy
    · rw [upd_ne _ _ (by omega), ih y, if_pos hy, if_pos (by omega)]
    · subst hy
      rw [upd_self, if_pos (by omega)]
    · rw [upd_ne _ _ (by omega), ih y, if_neg (by omega), if_neg (by omega)]

theorem resize_size {α : Type} (q : WaitFreeQueue α) (n : Nat)
    (newAlloc : Nat → α) : Size (Resize q n newAlloc) = Size q := by
  simp [Size, Resize]

theorem resize_toList {α : Type} {q : WaitFreeQueue α} {n j : Nat} (_hq : WFq q)
    (hj : n = 2 ^ j) (hsz : Size q < n) (newAlloc : Nat → α) :
    toList (Resize q n newAlloc) = toList q := by
  have hrup : RoundUpToNextPow2 n = n := by rw [hj, roundUp_pow2_eq]
  have hwf' : WFq (Resize q n newAlloc) := resize_WF newAlloc (by omega)
  rw [toList, toList, resize_size]
  apply List.map_congr_left
  intro i hi
  have hilt : i < Size q := List.mem_range.mp hi
  rw [itemAt_mod hwf']
  show resizeCopyLoop q newAlloc (Size q)
      ((0 + i) % ((Resize q n newAlloc).maxElementsMask + 1)) = ItemAt q i
  have hmask : (Resize q n newAlloc).maxElementsMask = n - 1 := by
    simp [Resize, hrup]
  rw [hmask, Nat.zero_add]
  have hC : n - 1 + 1 = n := by
    have : 0 < n := by omega
    omega
  rw [hC, Nat.mod_eq_of_lt (by omega), resizeCopyLoop_spec, if_pos hilt]

theorem doubleCapacity_toList {α : Type} {q : WaitFreeQueue α} (hq : WFq q)
    (newAlloc : Nat → α) : toList (DoubleCapacity q newAlloc) = toList q := by
  obtain ⟨k, hk⟩ := hq.pow2
  have h2 : 2 * (q.maxElementsMask + 1) = 2 ^ (k + 1) := by
    rw [hk, pow_succ, mul_comm]
  unfold DoubleCapacity
  refine resize_toList hq h2 ?_ newAlloc
  have := size_le_mask hq
  have hlt : 2 ^ k < 2 ^ (k + 1) := by
    have : (2:Nat) ^ k > 0 := Nat.pos_pow_of_pos k (by omega)
    rw [pow_succ]; omega
  omega

/-- `InsertWithResize` always appends the value at the back of the queue,
doubling the capacity first exactly when the plain `Insert` failed. -/
theorem insertWithResize_toList {α : Type} {q : WaitFreeQueue α} (hq : WFq q)
    (v : α) (newAlloc : Nat → α) :
    toList (InsertWithResize q v newAlloc) = toList q ++ [v] := by
  obtain ⟨k, hk⟩ := hq.pow2
  simp only [InsertWithResize]
  split
  · next htrue =>
    have hne : (q.tail + 1) % (q.maxElementsMask + 1) ≠ q.head := by
      intro hcon
      have := (insert_false_iff hq v).mpr hcon
      simp [htrue] at this
    exact insert_true_toList hq v hne
  · next hfalse =>
    have h2 : 2 * (q.maxElementsMask + 1) = 2 ^ (k + 1) := by
      rw [hk, pow_succ, mul_comm]
    have hs1 := size_le_mask hq
    have hszlt : Size q + 1 < 2 ^ (k + 1) := by omega
    have hwf2 : WFq (DoubleCapacity q newAlloc) := doubleCapacity_WF hq newAlloc
    have htl2 : toList (DoubleCapacity q newAlloc) = toList q :=
      doubleCapacity_toList hq newAlloc
    have hmask2 : (DoubleCapacity q newAlloc).maxElementsMask = 2 ^ (k + 1) - 1 := by
      simp [DoubleCapacity, Resize, h2, roundUp_pow2_eq]
    have hhead2 : (DoubleCapacity q newAlloc).head = 0 := rfl
    have htail2 : (DoubleCapacity q newAlloc).tail = Size q := rfl
    have hne2 : ((DoubleCapacity q newAlloc).tail + 1) %
        ((DoubleCapacity q newAlloc).maxElementsMask + 1) ≠
        (DoubleCapacity q newAlloc).head := by
      rw [hmask2, hhead2, htail2]
      have hC : 2 ^ (k + 1) - 1 + 1 = 2 ^ (k + 1) := by
        have : (2:Nat) ^ (k+1) > 0 := Nat.pos_pow_of_pos (k+1) (by omega)
        omega
      rw [hC, Nat.mod_eq_of_lt hszlt]
      omega
    rw [insert_true_toList hwf2 v hne2, htl2]

/-- Standalone form of the mask-to-modulo conversion. -/
theorem and_mask_eq_mod {mask : Nat} (hpow : ∃ k, mask + 1 = 2 ^ k) (x : Nat) :
    x &&& mask = x % (mask + 1) := by
  obtain ⟨k, hk⟩ := hpow
  have hm : mask = 2 ^ k - 1 := by omega
  rw [hm, Nat.and_pow_two_sub_one_eq_mod, ← hm, hk]

/-- Standalone form of the physical-position injectivity. -/
theorem pos_inj' {headv C : Nat} {i j : Nat} (hi : i < C) (hj : j < C)
    (h : (headv + i) % C = (headv + j) % C) : i = j := by
  have h' : Nat.ModEq C (headv + i) (headv + j) := h
  have h'' : Nat.ModEq C i j := Nat.ModEq.add_left_cancel' headv h'
  have h3 : i % C = j % C := h''
  rwa [Nat.mod_eq_of_lt hi, Nat.mod_eq_of_lt hj] at h3

/-- Behaviour of the first `n` iterations of the `EraseItemAtMoveFront`
loop: the slots at logical offsets `index-n+1 .. index` now hold the values
previously one slot before them, and every other array cell is untouched. -/
theorem eraseFrontLoop_spec {α : Type} (d : Nat → α) (headv index mask : Nat)
    (hpow : ∃ k, mask + 1 = 2 ^ k) (hindex : index ≤ mask) :
    ∀ n, n ≤ index →
      (∀ m, index - n < m → m ≤ index →
        eraseFrontLoop d headv index mask n ((headv + m) % (mask + 1)) =
          d ((headv + (m - 1)) % (mask + 1))) ∧
      (∀ y, (∀ m, index - n < m → m ≤ index → y ≠ (headv + m) % (mask + 1)) →
        eraseFrontLoop d headv index mask n y = d y) := by
  intro n
  induction n with
  | zero =>
    intro _
    constructor
    · intro m hm1 hm2; omega
    · intro y _; rfl
  | succ n ih =>
    intro hn
    obtain ⟨iha, ihb⟩ := ih (by omega)
    have hdest : (headv + index + mask + 1 - n) &&& mask =
        (headv + (index - n)) % (mask + 1) := by
      rw [and_mask_eq_mod hpow]
      have he : headv + index + mask + 1 - n = headv + (index - n) + (mask + 1) := by
        omega
      rw [he, Nat.add_mod_right]
    have hsrc : (headv + index + mask + 1 - n - 1) &&& mask =
        (headv + (index - n - 1)) % (mask + 1) := by
      rw [and_mask_eq_mod hpow]
      have he : headv + index + mask + 1 - n - 1 =
          headv + (index - n - 1) + (mask + 1) := by omega
      rw [he, Nat.add_mod_right]
    have hsrcval : eraseFrontLoop d headv index mask n
        ((headv + (index - n - 1)) % (mask + 1)) =
        d ((headv + (index - n - 1)) % (mask + 1)) := by
      apply ihb
      intro m hm1 hm2 hcon
      have := pos_inj' (C := mask + 1) (by omega) (by omega) hcon
      omega
    constructor
    · intro m hm1 hm2
      show upd (eraseFrontLoop d headv index mask n)
          ((headv + index + mask + 1 - n) &&& mask)
          (eraseFrontLoop d headv index mask n
            ((headv + index + mask + 1 - n - 1) &&& mask))
          ((headv + m) % (mask + 1)) = _
      rw [hdest, hsrc]
      rcases eq_or_ne m (index - n) with hm | hm
      · subst hm
        rw [upd_self, hsrcval]
      · have hmgt : index - n < m := by omega
        rw [upd_ne]
        · exact iha m hmgt hm2
        · intro hcon
          have := pos_inj' (C := mask + 1) (by omega) (by omega) hcon
          omega
    · intro y hy
      show upd (eraseFrontLoop d headv index mask n)
          ((headv + index + mask + 1 - n) &&& mask)
          (eraseFrontLoop d headv index mask n
            ((headv + index + mask + 1 - n - 1) &&& mask)) y = _
      rw [hdest, hsrc]
      rw [upd_ne]
      · apply ihb
        intro m hm1 hm2
        exact hy m (by omega) hm2
      · exact hy (index - n) (by omega) (by omega)

/-- Behaviour of the first `n` iterations of the `EraseItemAtMoveBack`
loop: the slots at logical offsets `index .. index+n-1` now hold the values
previously one slot after them, and every other array cell is untouched. -/
theorem eraseBackLoop_spec {α : Type} (d : Nat → α) (headv index mask : Nat)
    (hpow : ∃ k, mask + 1 = 2 ^ k) :
    ∀ n, index + n ≤ mask →
      (∀ m, index ≤ m → m < index + n →
        eraseBackLoop d headv index mask n ((headv + m) % (mask + 1)) =
          d ((headv + (m + 1)) % (mask + 1))) ∧
      (∀ y, (∀ m, index ≤ m → m < index + n → y ≠ (headv + m) % (mask + 1)) →
        eraseBackLoop d headv index mask n y = d y) := by
  intro n
  induction n with
  | zero =>
    intro _
    constructor
    · intro m hm1 hm2; omega
    · intro y _; rfl
  | succ n ih =>
    intro hn
    obtain ⟨iha, ihb⟩ := ih (by omega)
    have hdest : (headv + index + n) &&& mask =
        (headv + (index + n)) % (mask + 1) := by
      rw [and_mask_eq_mod hpow]
      congr 1
      omega
    have hsrc : (headv + index + n + 1) &&& mask =
        (headv + (index + n + 1)) % (mask + 1) := by
      rw [and_mask_eq_mod hpow]
      congr 1
      omega
    have hsrcval : eraseBackLoop d headv index mask n
        ((headv + (index + n + 1)) % (mask + 1)) =
        d ((headv + (index + n + 1)) % (mask + 1)) := by
      apply ihb
      intro m hm1 hm2 hcon
      have := pos_inj' (C := mask + 1) (by omega) (by omega) hcon
      omega
    constructor
    · intro m hm1 hm2
      show upd (eraseBackLoop d headv index mask n) ((headv + index + n) &&& mask)
          (eraseBackLoop d headv index mask n ((headv + index + n + 1) &&& mask))
          ((headv + m) % (mask + 1)) = _
      rw [hdest, hsrc]
      rcases eq_or_ne m (index + n) with hm | hm
      · subst hm
        rw [upd_self, hsrcval]
      · have hmlt : m < index + n := by omega
        rw [upd_ne]
        · exact iha m hm1 hmlt
        · intro hcon
          have := pos_inj' (C := mask + 1) (by omega) (by omega) hcon
          omega
    · intro y hy
      show upd (eraseBackLoop d headv index mask n) ((headv + index + n) &&& mask)
          (eraseBackLoop d headv index mask n ((headv + index + n + 1) &&& mask))
          y = _
      rw [hdest, hsrc]
      rw [upd_ne]
      · apply ihb
        intro m hm1 hm2
        exact hy m hm1 (by omega)
      · exact hy (index + n) (by omega) (by omega)

theorem eraseItemAtMoveFront_itemAt {α : Type} {q : WaitFreeQueue α} (hq : WFq q)
    {index : Nat} (hidx : index < Size q) (j : Nat) (hj : j < Size q - 1) :
    ItemAt (EraseItemAtMoveFront q index) j =
      if j < index then ItemAt q j else ItemAt q (j + 1) := by
  have hszle : Size q ≤ q.maxElementsMask := size_le_mask hq
  have hwf' : WFq (EraseItemAtMoveFront q index) :=
    ⟨hq.pow2, Nat.and_le_right, hq.tail_le⟩
  rw [itemAt_mod hwf']
  show eraseFrontLoop q.data q.head index q.maxElementsMask index
      ((((q.head + 1) &&& q.maxElementsMask) + j) % (q.maxElementsMask + 1)) = _
  rw [hq.and_mask (q.head + 1), Nat.mod_add_mod]
  have he : q.head + 1 + j = q.head + (j + 1) := by omega
  rw [he]
  obtain ⟨spa, spb⟩ := eraseFrontLoop_spec q.data q.head index q.maxElementsMask
    hq.pow2 (by omega) index (Nat.le_refl index)
  by_cases hji : j < index
  · rw [if_pos hji, spa (j + 1) (by omega) (by omega), itemAt_mod hq]
    have h1 : j + 1 - 1 = j := by omega
    rw [h1]
  · rw [if_neg hji]
    rw [spb ((q.head + (j + 1)) % (q.maxElementsMask + 1)) ?_, itemAt_mod hq]
    intro m hm1 hm2 hcon
    have := pos_inj' (C := q.maxElementsMask + 1) (by omega) (by omega) hcon
    omega

theorem eraseItemAtMoveFront_size {α : Type} {q : WaitFreeQueue α} (hq : WFq q)
    {index : Nat} (hidx : index < Size q) :
    Size (EraseItemAtMoveFront q index) = Size q - 1 := by
  have hnz : q.head ≠ q.tail := by
    intro hcon
    have := (size_eq_zero_iff hq).mpr hcon
    omega
  have h1 : Size (EraseItemAtMoveFront q index) = Size (PopFront q) := by
    unfold PopFront
    rw [if_neg hnz]
    rfl
  rw [h1, popFront_size hq hnz]

theorem eraseItemAtMoveFront_toList {α : Type} {q : WaitFreeQueue α} (hq : WFq q)
    {index : Nat} (hidx : index < Size q) :
    toList (EraseItemAtMoveFront q index) = (toList q).eraseIdx index := by
  apply List.ext_getElem
  · rw [toList_length, eraseItemAtMoveFront_size hq hidx,
      List.length_eraseIdx, toList_length, if_pos (by omega)]
  · intro j h1 h2
    rw [toList_getElem]
    have hj : j < Size q - 1 := by
      rw [toList_length, eraseItemAtMoveFront_size hq hidx] at h1
      exact h1
    rw [eraseItemAtMoveFront_itemAt hq hidx j hj]
    by_cases hji : j < index
    · rw [if_pos hji, List.getElem_eraseIdx_of_lt _ _ _ h2 hji, toList_getElem]
    · rw [if_neg hji, List.getElem_eraseIdx_of_ge _ _ _ h2 (by omega), toList_getElem]

theorem eraseItemAtMoveBack_itemAt {α : Type} {q : WaitFreeQueue α} (hq : WFq q)
    {index : Nat} (hidx : index < Size q) (j : Nat) (hj : j < Size q - 1) :
    ItemAt (EraseItemAtMoveBack q index) j =
      if j < index then ItemAt q j else ItemAt q (j + 1) := by
  have hszle : Size q ≤ q.maxElementsMask := size_le_mask hq
  have hwf' : WFq (EraseItemAtMoveBack q index) :=
    ⟨hq.pow2, hq.head_le, Nat.and_le_right⟩
  rw [itemAt_mod hwf']
  show eraseBackLoop q.data q.head index q.maxElementsMask (Size q - 1 - index)
      ((q.head + j) % (q.maxElementsMask + 1)) = _
  obtain ⟨spa, spb⟩ := eraseBackLoop_spec q.data q.head index q.maxElementsMask
    hq.pow2 (Size q - 1 - index) (by omega)
  by_cases hji : j < index
  · rw [if_pos hji]
    rw [spb ((q.head + j) % (q.maxElementsMask + 1)) ?_, itemAt_mod hq]
    intro m hm1 hm2 hcon
    have := pos_inj' (C := q.maxElementsMask + 1) (by omega) (by omega) hcon
    omega
  · rw [if_neg hji, spa j (by omega) (by omega), itemAt_mod hq]

theorem eraseItemAtMoveBack_size {α : Type} {q : WaitFreeQueue α} (hq : WFq q)
    {index : Nat} (hidx : index < Size q) :
    Size (EraseItemAtMoveBack q index) = Size q - 1 := by
  have h1 := hq.head_le
  have h2 := hq.tail_le
  have hnz : q.head ≠ q.tail := by
    intro hcon
    have := (size_eq_zero_iff hq).mpr hcon
    omega
  have htail : (q.tail + q.maxElementsMask + 1 - 1) &&& q.maxElementsMask =
      if q.tail = 0 then q.maxElementsMask else q.tail - 1 := by
    rw [hq.and_mask]
    rcases Nat.eq_zero_or_pos q.tail with ht | ht
    · rw [if_pos ht, ht]
      show (0 + q.maxElementsMask + 1 - 1) % (q.maxElementsMask + 1) = _
      have he : 0 + q.maxElementsMask + 1 - 1 = q.maxElementsMask := by omega
      rw [he, Nat.mod_eq_of_lt (by omega)]
    · rw [if_neg (by omega)]
      have he : q.tail + q.maxElementsMask + 1 - 1 =
          q.tail - 1 + (q.maxElementsMask + 1) := by omega
      rw [he, Nat.add_mod_right, Nat.mod_eq_of_lt (by omega)]
  show Size { q with
      data := eraseBackLoop q.data q.head index q.maxElementsMask (Size q - 1 - index),
      tail := (q.tail + q.maxElementsMask + 1 - 1) &&& q.maxElementsMask } = Size q - 1
  unfold Size at *
  simp only [htail]
  split at hidx <;> split <;> first
  | omega
  | (split <;> omega)

theorem eraseItemAtMoveBack_toList {α : Type} {q : WaitFreeQueue α} (hq : WFq q)
    {index : Nat} (hidx : index < Size q) :
    toList (EraseItemAtMoveBack q index) = (toList q).eraseIdx index := by
  apply List.ext_getElem
  · rw [toList_length, eraseItemAtMoveBack_size hq hidx,
      List.length_eraseIdx, toList_length, if_pos (by omega)]
  · intro j h1 h2
    rw [toList_getElem]
    have hj : j < Size q - 1 := by
      rw [toList_length, eraseItemAtMoveBack_size hq hidx] at h1
      exact h1
    rw [eraseItemAtMoveBack_itemAt hq hidx j hj]
    by_cases hji : j < index
    · rw [if_pos hji, List.getElem_eraseIdx_of_lt _ _ _ h2 hji, toList_getElem]
    · rw [if_neg hji, List.getElem_eraseIdx_of_ge _ _ _ h2 (by omega), toList_getElem]

/-- `EraseItemAt` removes exactly the element at logical position `index`:
whichever way it dispatches, the resulting observable sequence is the old
one with position `index` deleted. -/
theorem eraseItemAt_spec {α : Type} {q : WaitFreeQueue α} (hq : WFq q)
    {index : Nat} (hidx : index < Size q) :
    Size (EraseItemAt q index) = Size q - 1 ∧
    toList (EraseItemAt q index) = (toList q).eraseIdx index := by
  unfold EraseItemAt
  split
  · exact ⟨eraseItemAtMoveFront_size hq hidx, eraseItemAtMoveFront_toList hq hidx⟩
  · exact ⟨eraseItemAtMoveBack_size hq hidx, eraseItemAtMoveBack_toList hq hidx⟩

theorem itemAt_zero {α : Type} {q : WaitFreeQueue α} (hq : WFq q) :
    ItemAt q 0 = q.data q.head := by
  rw [itemAt_mod hq, Nat.add_zero, Nat.mod_eq_of_lt (by have := hq.head_le; omega)]

/-- Filling an all-but-full queue from the producer side: starting from a
state with `head = 0` and room for the whole list, every `Insert` succeeds
and `tail` advances by the length of the list. -/
theorem insertList_spec {α : Type} (M k : Nat) (hM : M + 1 = 2 ^ k) :
    ∀ (vs : List α) (q : WaitFreeQueue α), q.maxElementsMask = M → q.head = 0 →
      q.tail + vs.length ≤ M →
      (insertList q vs).2 = true ∧
      (insertList q vs).1.maxElementsMask = M ∧
      (insertList q vs).1.head = 0 ∧
      (insertList q vs).1.tail = q.tail + vs.length := by
  intro vs
  induction vs with
  | nil =>
    intro q hm hh ht
    simp [insertList, hm, hh]
  | cons v vs ih =>
    intro q hm hh ht
    have hwf : WFq q := ⟨⟨k, by rw [hm]; exact hM⟩, by omega, by simp at ht; omega⟩
    have hne : (q.tail + 1) % (q.maxElementsMask + 1) ≠ q.head := by
      rw [hm, hh]
      simp only [List.length_cons] at ht
      rw [Nat.mod_eq_of_lt (by omega)]
      omega
    have heq := insert_true_eq hwf v
    simp only [insertList]
    rw [heq hne]
    simp only [List.length_cons] at ht
    have htail' : (q.tail + 1) % (q.maxElementsMask + 1) = q.tail + 1 := by
      rw [hm, Nat.mod_eq_of_lt (by omega)]
    obtain ⟨ih1, ih2, ih3, ih4⟩ := ih
      { data := upd q.data q.tail v, maxElementsMask := q.maxElementsMask,
        head := q.head, tail := (q.tail + 1) % (q.maxElementsMask + 1) }
      hm hh (by
        show (q.tail + 1) % (q.maxElementsMask + 1) + vs.length ≤ M
        rw [htail']
        omega)
    dsimp only at ih4
    refine ⟨by rw [ih1]; rfl, ih2, ih3, ?_⟩
    rw [ih4, htail']
    simp only [List.length_cons]
    omega

/-- Invariant preservation for one interleaved call. -/
theorem SPSCStep_inv {α : Type} (s : SPSCState α) (e : SPSCEvent α)
    (h1 : WFq s.queue) (h2 : s.produced = s.consumed ++ toList s.queue) :
    WFq (SPSCStep s e).queue ∧
    (SPSCStep s e).produced =
      (SPSCStep s e).consumed ++ toList (SPSCStep s e).queue := by
  cases e with
  | insert v =>
    simp only [SPSCStep]
    split
    · next htrue =>
      refine ⟨insert_WF h1 v, ?_⟩
      have hne : (s.queue.tail + 1) % (s.queue.maxElementsMask + 1) ≠
          s.queue.head := by
        intro hcon
        have := (insert_false_iff h1 v).mpr hcon
        rw [this] at htrue
        cases htrue
      show s.produced ++ [v] = s.consumed ++ toList (Insert s.queue v).2
      rw [insert_true_toList h1 v hne, h2, List.append_assoc]
    · next hfalse =>
      have hq0 : (Insert s.queue v).2 = s.queue :=
        insert_false_eq s.queue v (by
          cases hb : (Insert s.queue v).1
          · rfl
          · rw [hb] at hfalse; cases hfalse rfl)
      constructor
      · show WFq (Insert s.queue v).2
        rw [hq0]; exact h1
      · show s.produced = s.consumed ++ toList (Insert s.queue v).2
        rw [hq0]; exact h2
  | pop =>
    simp only [SPSCStep]
    cases hf : Front s.queue with
    | none => exact ⟨h1, h2⟩
    | some v =>
      have hne : s.queue.head ≠ s.queue.tail := by
        intro hcon
        unfold Front at hf
        rw [if_pos hcon] at hf
        cases hf
      have hv : v = s.queue.data s.queue.head := by
        unfold Front at hf
        rw [if_neg hne] at hf
        cases hf
        rfl
      refine ⟨popFront_WF h1, ?_⟩
      show s.produced = s.consumed ++ [v] ++ toList (PopFront s.queue)
      rw [h2, toList_cons h1 hne, itemAt_zero h1, ← hv, List.append_assoc]
      rfl

/-- The SPSC interleaving invariant: at every point of every interleaving,
the successfully produced sequence is the consumed sequence followed by the
current queue contents. -/
theorem SPSCRun_inv {α : Type} :
    ∀ (es : List (SPSCEvent α)) (s : SPSCState α), WFq s.queue →
      s.produced = s.consumed ++ toList s.queue →
      WFq (SPSCRun s es).queue ∧
      (SPSCRun s es).produced =
        (SPSCRun s es).consumed ++ toList (SPSCRun s es).queue := by
  intro es
  induction es with
  | nil =>
    intro s h1 h2
    exact ⟨h1, h2⟩
  | cons e es ih =>
    intro s h1 h2
    obtain ⟨h1', h2'⟩ := SPSCStep_inv s e h1 h2
    exact ih (SPSCStep s e) h1' h2'

theorem toList_mkQueue {α : Type} (maxElements : Nat) (d0 : Nat → α) :
    toList (mkQueue maxElements d0) = [] := by
  simp [toList, Size, mkQueue]

theorem wfq4 : WFq q4 :=
  mkQueue_WF 4 (fun _ => 0)

theorem wfqWrap : WFq qWrap :=
  ⟨⟨2, rfl⟩, by decide, by decide⟩

theorem sizeqWrap : Size qWrap = 3 := by
  decide

/-- C1: for every interleaving of one producer thread calling `Insert` and
one consumer thread calling `Front`/`PopFront` on a `WaitFreeQueue`, the
sequence of values the consumer pops is exactly the sequence of values the
producer successfully inserted, in the same order, with no value skipped
and no value observed twice: at every point the consumed sequence is a
prefix of the produced one and the queue holds exactly the rest, so when
the consumer has drained the queue the two sequences coincide. -/
theorem c1_ring_buffer_fifo {α : Type} (maxElements : Nat) (d0 : Nat → α)
    (es : List (SPSCEvent α)) :
    (SPSCRun ⟨mkQueue maxElements d0, [], []⟩ es).produced =
      (SPSCRun ⟨mkQueue maxElements d0, [], []⟩ es).consumed ++
        toList (SPSCRun ⟨mkQueue maxElements d0, [], []⟩ es).queue ∧
    (SPSCRun ⟨mkQueue maxElements d0, [], []⟩ es).consumed <+:
      (SPSCRun ⟨mkQueue maxElements d0, [], []⟩ es).produced ∧
    (toList (SPSCRun ⟨mkQueue maxElements d0, [], []⟩ es).queue = [] →
      (SPSCRun ⟨mkQueue maxElements d0, [], []⟩ es).consumed =
        (SPSCRun ⟨mkQueue maxElements d0, [], []⟩ es).produced) := by
  obtain ⟨hwf, hinv⟩ := SPSCRun_inv es ⟨mkQueue maxElements d0, [], []⟩
    (mkQueue_WF maxElements d0)
    (by show ([] : List α) = [] ++ toList (mkQueue maxElements d0)
        rw [toList_mkQueue]
        rfl)
  refine ⟨hinv, ⟨_, hinv.symm⟩, ?_⟩
  intro hempty
  rw [hinv, hempty, List.append_nil]

/-- C2: `Insert(value)` returns false exactly when the queue is full,
i.e. when `(tail+1) mod C = head`, and in that case `head`, `tail` and all
stored elements are unchanged; otherwise it writes `value` into the slot at
`tail`, advances `tail` by one modulo `C`, and returns true. -/
theorem c2_insert_spec {α : Type} (q : WaitFreeQueue α) (v : α) (hq : WFq q) :
    ((Insert q v).1 = false ↔
      (q.tail + 1) % (q.maxElementsMask + 1) = q.head) ∧
    ((Insert q v).1 = false → (Insert q v).2 = q) ∧
    ((Insert q v).1 = true →
      (Insert q v).2.data = upd q.data q.tail v ∧
      (Insert q v).2.head = q.head ∧
      (Insert q v).2.tail = (q.tail + 1) % (q.maxElementsMask + 1) ∧
      (Insert q v).2.maxElementsMask = q.maxElementsMask) := by
  refine ⟨insert_false_iff hq v, insert_false_eq q v, ?_⟩
  intro htrue
  have hne : (q.tail + 1) % (q.maxElementsMask + 1) ≠ q.head := by
    intro hcon
    have := (insert_false_iff hq v).mpr hcon
    rw [this] at htrue
    cases htrue
  rw [insert_true_eq hq v hne]
  exact ⟨rfl, rfl, rfl, rfl⟩

theorem c2_insert_spec_witness :
    ((Insert q4 7).1 = false ↔
      (q4.tail + 1) % (q4.maxElementsMask + 1) = q4.head) ∧
    ((Insert q4 7).1 = false → (Insert q4 7).2 = q4) ∧
    ((Insert q4 7).1 = true →
      (Insert q4 7).2.data = upd q4.data q4.tail 7 ∧
      (Insert q4 7).2.head = q4.head ∧
      (Insert q4 7).2.tail = (q4.tail + 1) % (q4.maxElementsMask + 1) ∧
      (Insert q4 7).2.maxElementsMask = q4.maxElementsMask) :=
  c2_insert_spec q4 7 wfq4

/-- C10: in every reachable state of a `WaitFreeQueue`,
`maxElementsMask + 1` (the allocated array length `C`) is a power of two —
the constructor and `Resize` both round the requested size up with
`RoundUpToNextPow2` before setting `maxElementsMask` — so every index
computation `x & maxElementsMask` coincides with `x mod C`. -/
theorem c10_mask_pow2_invariant {α : Type} (q : WaitFreeQueue α)
    (hq : Reachable q) :
    (∃ k, q.maxElementsMask + 1 = 2 ^ k) ∧
    ∀ x, x &&& q.maxElementsMask = x % (q.maxElementsMask + 1) := by
  have hwf := reachable_WF hq
  exact ⟨hwf.pow2, fun x => hwf.and_mask x⟩

theorem c10_mask_pow2_invariant_witness :
    (∃ k, q4.maxElementsMask + 1 = 2 ^ k) ∧
    ∀ x, x &&& q4.maxElementsMask = x % (q4.maxElementsMask + 1) :=
  c10_mask_pow2_invariant q4 (Reachable.init 4 (fun _ => 0))

/-- C3: for a queue constructed with power-of-two array length `C`,
`Capacity()` returns `C-1` (the value of `maxElementsMask`), in every
reachable state `0 ≤ Size() ≤ Capacity()`, and the full state
`Size() = Capacity()` is reached by `C-1` successful `Insert`s on an
empty queue. -/
theorem c3_capacity_spec {α : Type} (k : Nat) (d0 : Nat → α) (vs : List α)
    (hlen : vs.length = 2 ^ k - 1) (q : WaitFreeQueue α) (hq : Reachable q) :
    Capacity (mkQueue (2 ^ k) d0) = 2 ^ k - 1 ∧
    Size q ≤ Capacity q ∧
    (insertList (mkQueue (2 ^ k) d0) vs).2 = true ∧
    Size (insertList (mkQueue (2 ^ k) d0) vs).1 =
      Capacity (insertList (mkQueue (2 ^ k) d0) vs).1 := by
  have hpos : (0:Nat) < 2 ^ k := Nat.pos_pow_of_pos k (by omega)
  have hmask : (mkQueue (2 ^ k) d0).maxElementsMask = 2 ^ k - 1 := by
    show RoundUpToNextPow2 (2 ^ k) - 1 = 2 ^ k - 1
    rw [roundUp_pow2_eq]
  have hM : (2 ^ k - 1) + 1 = 2 ^ k := by omega
  obtain ⟨h1, h2, h3, h4⟩ := insertList_spec (2 ^ k - 1) k hM vs
    (mkQueue (2 ^ k) d0) hmask rfl
    (by show (mkQueue (2 ^ k) d0).tail + vs.length ≤ 2 ^ k - 1
        show 0 + vs.length ≤ 2 ^ k - 1
        omega)
  have ht0 : (mkQueue (2 ^ k) d0).tail = 0 := rfl
  rw [ht0] at h4
  refine ⟨hmask, size_le_mask (reachable_WF hq), h1, ?_⟩
  unfold Size Capacity
  rw [h2, h3, h4]
  rw [if_pos (by omega)]
  omega

theorem c3_capacity_spec_witness :
    Capacity (mkQueue (2 ^ 2) (fun _ => (0:Nat))) = 2 ^ 2 - 1 ∧
    Size q4 ≤ Capacity q4 ∧
    (insertList (mkQueue (2 ^ 2) (fun _ => (0:Nat))) [5, 6, 7]).2 = true ∧
    Size (insertList (mkQueue (2 ^ 2) (fun _ => (0:Nat))) [5, 6, 7]).1 =
      Capacity (insertList (mkQueue (2 ^ 2) (fun _ => (0:Nat))) [5, 6, 7]).1 :=
  c3_capacity_spec 2 (fun _ => 0) [5, 6, 7] (by decide) q4
    (Reachable.init 4 (fun _ => 0))

/-- C4: `Front()` returns a null pointer exactly when the queue is empty
(`head = tail`) and otherwise returns a pointer to the element at index
`head`; `PopFront()` on a non-empty queue advances `head` by one modulo
`C`, removing exactly the front element and leaving the remaining elements
and their order unchanged. -/
theorem c4_front_popFront_spec {α : Type} (q : WaitFreeQueue α) (hq : WFq q) :
    (Front q = none ↔ q.head = q.tail) ∧
    (q.head ≠ q.tail → Front q = some (q.data q.head)) ∧
    (q.head ≠ q.tail →
      (PopFront q).head = (q.head + 1) % (q.maxElementsMask + 1) ∧
      Size (PopFront q) = Size q - 1 ∧
      toList q = q.data q.head :: toList (PopFront q)) := by
  refine ⟨?_, ?_, ?_⟩
  · unfold Front
    split <;> simp_all
  · intro h
    unfold Front
    rw [if_neg h]
  · intro h
    refine ⟨?_, popFront_size hq h, ?_⟩
    · rw [popFront_eq hq h]
    · rw [toList_cons hq h, itemAt_zero hq]

theorem c4_front_popFront_spec_witness :
    (Front qWrap = none ↔ qWrap.head = qWrap.tail) ∧
    (qWrap.head ≠ qWrap.tail → Front qWrap = some (qWrap.data qWrap.head)) ∧
    (qWrap.head ≠ qWrap.tail →
      (PopFront qWrap).head = (qWrap.head + 1) % (qWrap.maxElementsMask + 1) ∧
      Size (PopFront qWrap) = Size qWrap - 1 ∧
      toList qWrap = qWrap.data qWrap.head :: toList (PopFront qWrap)) :=
  c4_front_popFront_spec qWrap wfqWrap

/-- C5: for every queue whose element count is below the new capacity,
`Resize` — and hence `DoubleCapacity`, which resizes to twice the current
array length — preserves `Size()` and the observable element sequence;
consequently `InsertWithResize(value)` always ends with `value` appended to
the back of the queue, doubling the capacity first when the queue is
full. -/
theorem c5_resize_spec {α : Type} (q : WaitFreeQueue α) (hq : WFq q) :
    (∀ (n j : Nat) (newAlloc : Nat → α), n = 2 ^ j → Size q < n →
      Size (Resize q n newAlloc) = Size q ∧
      toList (Resize q n newAlloc) = toList q) ∧
    (∀ newAlloc : Nat → α,
      Size (DoubleCapacity q newAlloc) = Size q ∧
      toList (DoubleCapacity q newAlloc) = toList q) ∧
    (∀ (v : α) (newAlloc : Nat → α),
      toList (InsertWithResize q v newAlloc) = toList q ++ [v]) := by
  refine ⟨?_, ?_, ?_⟩
  · intro n j newAlloc hj hlt
    exact ⟨resize_size q n newAlloc, resize_toList hq hj hlt newAlloc⟩
  · intro newAlloc
    exact ⟨resize_size q (2 * (q.maxElementsMask + 1)) newAlloc,
      doubleCapacity_toList hq newAlloc⟩
  · intro v newAlloc
    exact insertWithResize_toList hq v newAlloc

theorem c5_resize_spec_witness :
    (∀ (n j : Nat) (newAlloc : Nat → Nat), n = 2 ^ j → Size qWrap < n →
      Size (Resize qWrap n newAlloc) = Size qWrap ∧
      toList (Resize qWrap n newAlloc) = toList qWrap) ∧
    (∀ newAlloc : Nat → Nat,
      Size (DoubleCapacity qWrap newAlloc) = Size qWrap ∧
      toList (DoubleCapacity qWrap newAlloc) = toList qWrap) ∧
    (∀ (v : Nat) (newAlloc : Nat → Nat),
      toList (InsertWithResize qWrap v newAlloc) = toList qWrap ++ [v]) :=
  c5_resize_spec qWrap wfqWrap

/-- C6: for every non-empty queue and every index `0 ≤ i < Size()`,
`EraseItemAt(i)` removes exactly the element at logical position `i`
(whether it dispatches to `EraseItemAtMoveFront` or `EraseItemAtMoveBack`),
decreases `Size()` by one, and preserves the relative order of all other
elements, for all head/tail positions including those where the occupied
region wraps around the end of the array. -/
theorem c6_eraseItemAt_correct {α : Type} (q : WaitFreeQueue α) (index : Nat)
    (hq : WFq q) (hidx : index < Size q) :
    Size (EraseItemAt q index) = Size q - 1 ∧
    toList (EraseItemAt q index) = (toList q).eraseIdx index :=
  eraseItemAt_spec hq hidx

theorem c6_eraseItemAt_correct_witness :
    Size (EraseItemAt qWrap 1) = Size qWrap - 1 ∧
    toList (EraseItemAt qWrap 1) = (toList qWrap).eraseIdx 1 :=
  c6_eraseItemAt_correct qWrap 1 wfqWrap (by decide)

/-- C7 (amended): when the test harness is invoked with a first argument
that is neither "server" nor "client" (case-insensitively, and at least 4
arguments with a valid tcp/udp second argument), it prints the error line
"The second parameter is either 'server' or 'client'!" — not the usage
text — and exits with status 0. -/
theorem c7_unknown_subcommand (argv : List String) (ok : Bool)
    (hlen : ¬ argv.length < 4)
    (htrans : StringToSocketTransportLayer (argv.getD 2 "") ≠
      SocketTransportLayer.InvalidTransportLayer)
    (hserver : stricmpEq (argv.getD 1 "") "server" = false)
    (hclient : stricmpEq (argv.getD 1 "") "client" = false) :
    mainModel argv ok = ([OutLine.errSubcommand], 0) := by
  unfold mainModel
  rw [if_neg hlen, if_neg htrans, hserver, hclient]
  simp

/-- C7 (counterexample to the claim as stated): on an unknown subcommand
with four arguments and a valid transport, the harness does not print the
usage text (it prints the subcommand error line), though it does exit 0. -/
theorem c7_counterexample :
    (mainModel ["InOrderTest", "foo", "tcp", "2345"] true).1 ≠ PrintUsage ∧
    (mainModel ["InOrderTest", "foo", "tcp", "2345"] true).2 = 0 := by
  constructor
  · decide
  · decide

theorem c7_unknown_subcommand_witness :
    mainModel ["InOrderTest", "foo", "tcp", "2345"] true =
      ([OutLine.errSubcommand], 0) :=
  c7_unknown_subcommand ["InOrderTest", "foo", "tcp", "2345"] true
    (by decide) (by decide) (by decide) (by decide)

/-- C8 (amended): the test harness exits with status 0 on every path —
normal termination, usage errors (fewer than 4 arguments, or a client
invocation with fewer than 5 arguments), invalid transport argument, and
network failures alike; no path returns 1 or 2. -/
theorem c8_exit_always_zero (argv : List String) (ok : Bool) :
    (mainModel argv ok).2 = 0 := by
  unfold mainModel RunServerModel
  repeat' split
  all_goals rfl

/-- C8 (counterexample to the claim as stated): invoked with no arguments
(a usage error), the harness prints the usage text but exits with status 0,
not 1. -/
theorem c8_counterexample :
    (mainModel ["InOrderTest"] true).1 = PrintUsage ∧
    (mainModel ["InOrderTest"] true).2 ≠ 1 := by
  constructor
  · decide
  · decide

/-- C9: on an empty queue (`head = tail`) `PopFront` is a no-op that
leaves `head`, `tail` and all elements unchanged, whereas `TakeFront`
dereferences the null pointer returned by `Front` (modelled as `none`);
`TakeFront` is well-defined exactly when `Size() > 0`, in which case it
returns the front element and removes it from the queue. -/
theorem c9_takeFront_spec {α : Type} (q : WaitFreeQueue α) (hq : WFq q) :
    (q.head = q.tail → PopFront q = q) ∧
    (TakeFront q = none ↔ Size q = 0) ∧
    (0 < Size q →
      TakeFront q = some (q.data q.head, PopFront q) ∧
      toList q = q.data q.head :: toList (PopFront q)) := by
  refine ⟨?_, ?_, ?_⟩
  · intro h
    unfold PopFront
    rw [if_pos h]
  · rw [size_eq_zero_iff hq]
    unfold TakeFront Front
    by_cases h : q.head = q.tail
    · rw [if_pos h]
      simp [h]
    · rw [if_neg h]
      simp [h]
  · intro hpos
    have hne : q.head ≠ q.tail := by
      intro hcon
      have := (size_eq_zero_iff hq).mpr hcon
      omega
    constructor
    · unfold TakeFront Front
      rw [if_neg hne]
    · rw [toList_cons hq hne, itemAt_zero hq]

theorem c9_takeFront_spec_witness :
    (qWrap.head = qWrap.tail → PopFront qWrap = qWrap) ∧
    (TakeFront qWrap = none ↔ Size qWrap = 0) ∧
    (0 < Size qWrap →
      TakeFront qWrap = some (qWrap.data qWrap.head, PopFront qWrap) ∧
      toList qWrap = qWrap.data qWrap.head :: toList (PopFront qWrap)) :=
  c9_takeFront_spec qWrap wfqWrap
